import Mathlib

/-!
# Verification of the `txed` immutable text-buffer core

This file gives a shallow embedding of the rope-based text-object model of
`text_edit` (classes `text_iterator`, `text_object`, `text_string`,
`text_replacement`, `rope_node_trimmer`, `rope_trimmed_range`) and proves the
documented properties of the segment-map construction, character access,
iterators and error handling.

The embedding follows the complete rope implementation:
* a `rope` is a `std::map<int, string_segment>` keyed by cumulative end
  offset; it is modelled as a list of entries in increasing key order,
  `string_segment` (a pair of `std::string::const_iterator`) as the owning
  character sequence together with begin/end offsets into it;
* `upper_bound` on the map becomes the first entry whose key exceeds the
  query (for position computations, the count of leading entries whose key
  is at most the query);
* `std::map` range construction (insertion that keeps the first element for
  a repeated key) becomes `map_insert` folded over the entry list;
* C++ `int` arithmetic is modelled with `Int` (overflow is out of scope);
* exceptions (`text_out_of_range`, `iterator_mismatch`) and `assert`
  failures become `Except` error values; an out-of-bounds iterator
  dereference into a leaf string (which the source does not guard) is kept
  apart as `undefinedDeref`.
-/

namespace TextEdit

/-- `string_segment`: a pair of `const_iterator`s into an owning string,
modelled as the owning character list plus the begin/end offsets of the two
iterators. -/
structure Seg where
  owner : List Char
  sb : Int
  se : Int
deriving DecidableEq, Repr

/-- The characters a segment denotes: `owner[sb..se)`. -/
def Seg.chars (s : Seg) : List Char :=
  ((s.owner.drop s.sb.toNat).take (s.se - s.sb).toNat)

/-- A `rope` / `segment_map`: the entries of `std::map<int, string_segment>`
in increasing key order.  The key of an entry is the cumulative end offset of
the segment inside the composed text. -/
abbrev Rope := List (Int × Seg)

/-- Errors raised by character access: `text_out_of_range` carries the index
and the container length exactly as the C++ exception does;
`undefinedDeref` marks a dereference outside the owning string (the C++
source performs it without any check — undefined behaviour). -/
inductive AccessError where
  | outOfRange (index : Int) (length : Int)
  | undefinedDeref
deriving DecidableEq, Repr

/-- `text_object::length`: the key of the last map entry, or `0` for the
empty map. -/
def ropeLength (r : Rope) : Int :=
  match r.getLast? with
  | none => 0
  | some en => en.1

/-- `m_rope.upper_bound(i)`: the first entry whose key is strictly greater
than `i` (the list is in increasing key order). -/
def upperBound (r : Rope) (i : Int) : Option (Int × Seg) :=
  r.find? (fun en => decide (i < en.1))

/-- `text_object::at`: locate the segment by `upper_bound`, throw
`text_out_of_range` when there is none, else dereference
`segment_end - (segment_end_offset - i)` in the owning string. -/
def ropeAt (r : Rope) (i : Int) : Except AccessError Char :=
  match upperBound r i with
  | none => .error (.outOfRange i (ropeLength r))
  | some en =>
      let atom : Int := en.2.se - (en.1 - i)
      if h : 0 ≤ atom ∧ atom < en.2.owner.length then
        .ok (en.2.owner.get ⟨atom.toNat, by omega⟩)
      else
        .error .undefinedDeref

/-- `text_object::to_string`: materialise by dereferencing every index from
`begin()` to `end()`. -/
def ropeToString (r : Rope) : Except AccessError (List Char) :=
  (List.range (ropeLength r).toNat).mapM (fun (n : Nat) => ropeAt r (Int.ofNat n))

/-- `text_string::string_to_rope`: a non-empty string becomes the single
entry `(length, (cbegin, cend))`; the empty string becomes the empty map. -/
def string_to_rope (value : List Char) : Rope :=
  if value ≠ [] then [((value.length : Int), ⟨value, 0, (value.length : Int)⟩)] else []

end TextEdit

namespace TextEdit

/-! ## The trimming machinery of `text_replacement::make_rope` -/

/-- `rope_node_trimmer::operator()`: restrict a map entry to the window
`[new_begin_offset, new_end_offset)` and shift its key by `shift` (relative
to `new_begin_offset`). -/
def trimNode (nb ne shift : Int) (x : Int × Seg) : Int × Seg :=
  (x.1 - nb + min 0 (ne - x.1) + shift,
    ⟨x.2.owner,
      x.2.sb + max 0 (nb - (x.1 - (x.2.se - x.2.sb))),
      x.2.se + min 0 (ne - x.1)⟩)

/-- Position of `upper_bound(x)` in the entry list: the number of leading
entries whose key is at most `x`. -/
def ubIdx (r : Rope) (x : Int) : Nat :=
  (r.takeWhile (fun en => decide (en.1 ≤ x))).length

/-- Position of the past-the-end iterator of `rope_trimmed_range`:
`upper_bound(new_end_offset)`, advanced once more when it is not already
`map.end()`. -/
def trimEndIdx (r : Rope) (x : Int) : Nat :=
  let q := ubIdx r x
  if q = r.length then q else q + 1

/-- The sub-list of map entries enumerated by `rope_trimmed_range`
(before the trimmer is applied). -/
def trimSel (r : Rope) (nb ne : Int) : Rope :=
  (r.drop (ubIdx r nb)).take (trimEndIdx r ne - ubIdx r nb)

/-- `rope_trimmed_range`: the selected entries with the trimmer applied. -/
def trimmedRange (r : Rope) (nb ne shift : Int) : Rope :=
  (trimSel r nb ne).map (trimNode nb ne shift)

/-- `std::map::insert` of one key/value pair into an ordered entry list:
the pair is placed at its key position, and is discarded when the key is
already present (`insert` keeps the existing element). -/
def mapInsert (r : Rope) (en : Int × Seg) : Rope :=
  match r with
  | [] => [en]
  | x :: xs =>
      if en.1 < x.1 then en :: x :: xs
      else if x.1 < en.1 then x :: mapInsert xs en
      else x :: xs

/-- `rope(joined.begin(), joined.end())`: range construction of a
`std::map`, i.e. repeated insertion keeping the first element of any
repeated key. -/
def mapOfList (l : List (Int × Seg)) : Rope :=
  l.foldl mapInsert []

/-- The trimmer's `assert`s, for every entry the range enumerates:
`end_offset >= new_begin_offset` and `begin_offset <= new_end_offset`. -/
def trimAsserts (r : Rope) (nb ne : Int) : Prop :=
  ∀ x ∈ trimSel r nb ne, nb ≤ x.1 ∧ x.1 - (x.2.se - x.2.sb) ≤ ne

instance (r : Rope) (nb ne : Int) : Decidable (trimAsserts r nb ne) :=
  List.decidableBAll _ _

/-- `text_replacement::make_rope` minus its `assert`s: trim the base map to
the prefix `[0, cut_from)`, the patch map to `[patch_from, patch_to)`
shifted by `cut_from`, the base map to the postfix `[cut_to, length)`
shifted by `cut_from + patch_to - patch_from`, join, and rebuild a map. -/
def makeRope (rb : Rope) (cutFrom cutTo : Int) (rp : Rope) (patchFrom patchTo : Int) : Rope :=
  mapOfList
    (trimmedRange rb 0 cutFrom 0 ++
      (trimmedRange rp patchFrom patchTo cutFrom ++
        trimmedRange rb cutTo (ropeLength rb) (cutFrom + patchTo - patchFrom)))

/-- How a replacement construction can fail before a value exists: a
failed `assert` aborts; traversing a trimmed view whose begin iterator
lies after its end iterator (which `rope_trimmed_range` produces for some
invalid windows) walks past `map.end()` in the `std::map` range
constructor — undefined behaviour, kept apart from a clean abort. -/
inductive ConstructionError where
  | preconditionViolation
  | undefinedTraversal
deriving DecidableEq, Repr

/-- The begin position of a trimmed view does not lie after its end
position; only then is the view a proper iterator range whose traversal is
defined. -/
def viewProper (r : Rope) (nb ne : Int) : Prop :=
  ubIdx r nb ≤ trimEndIdx r ne

instance (r : Rope) (nb ne : Int) : Decidable (viewProper r nb ne) :=
  Nat.decLe _ _

/-- All `assert`s on the construction path of `text_replacement::make_rope`:
the four explicit bound checks at its head, plus the trimmer's per-entry
`assert`s for the three trimmed views. -/
def makeRopeAsserts (rb : Rope) (cutFrom cutTo : Int) (rp : Rope) (patchFrom patchTo : Int) : Prop :=
  (cutFrom ≤ ropeLength rb ∧ cutTo ≤ ropeLength rb ∧
      patchFrom ≤ ropeLength rp ∧ patchTo ≤ ropeLength rp) ∧
    trimAsserts rb 0 cutFrom ∧ trimAsserts rp patchFrom patchTo ∧
      trimAsserts rb cutTo (ropeLength rb)

instance (rb : Rope) (i j : Int) (rp : Rope) (k l : Int) :
    Decidable (makeRopeAsserts rb i j rp k l) :=
  instDecidableAnd

/-- `text_replacement` construction: the four explicit `assert`s run
first; then the joined views are traversed — a view whose begin iterator
lies after its end iterator makes that traversal undefined, and on proper
views every per-entry trimmer `assert` must pass — only then does the new
rope value exist.  (All three failure causes abort before any value is
returned; their relative order among each other is not load-bearing.) -/
def makeRopeChecked (rb : Rope) (cutFrom cutTo : Int) (rp : Rope) (patchFrom patchTo : Int) :
    Except ConstructionError Rope :=
  if cutFrom ≤ ropeLength rb ∧ cutTo ≤ ropeLength rb ∧
      patchFrom ≤ ropeLength rp ∧ patchTo ≤ ropeLength rp then
    if viewProper rb 0 cutFrom ∧ viewProper rp patchFrom patchTo ∧
        viewProper rb cutTo (ropeLength rb) then
      if trimAsserts rb 0 cutFrom ∧ trimAsserts rp patchFrom patchTo ∧
          trimAsserts rb cutTo (ropeLength rb) then
        .ok (makeRope rb cutFrom cutTo rp patchFrom patchTo)
      else
        .error .preconditionViolation
    else
      .error .undefinedTraversal
  else
    .error .preconditionViolation

end TextEdit

namespace TextEdit

/-! ## Iterators -/

/-- `iterator_mismatch`: subtraction or comparison of iterators into
different containers. -/
inductive IteratorError where
  | iteratorMismatch
deriving DecidableEq, Repr

/-- `text_iterator`: the target object (its address, modelled as an opaque
identity) and the current absolute index. -/
structure TextIterator where
  target : Nat
  currentIndex : Int
deriving DecidableEq, Repr

/-- `text_iterator::diff`: `assert_comparable` then subtract the indices. -/
def iterDiff (i j : TextIterator) : Except IteratorError Int :=
  if i.target = j.target then .ok (i.currentIndex - j.currentIndex)
  else .error .iteratorMismatch

/-- `operator==`: `diff(it) == 0`. -/
def iterEq (i j : TextIterator) : Except IteratorError Bool :=
  (iterDiff i j).map (fun d => decide (d = 0))

/-- `operator!=`: `diff(it) != 0`. -/
def iterNe (i j : TextIterator) : Except IteratorError Bool :=
  (iterDiff i j).map (fun d => decide (d ≠ 0))

/-- `operator<`: `diff(it) < 0`. -/
def iterLt (i j : TextIterator) : Except IteratorError Bool :=
  (iterDiff i j).map (fun d => decide (d < 0))

/-- `operator>`: `diff(it) > 0`. -/
def iterGt (i j : TextIterator) : Except IteratorError Bool :=
  (iterDiff i j).map (fun d => decide (0 < d))

/-- `operator<=`: `diff(it) <= 0`. -/
def iterLe (i j : TextIterator) : Except IteratorError Bool :=
  (iterDiff i j).map (fun d => decide (d ≤ 0))

/-- `operator>=`: `diff(it) >= 0`. -/
def iterGe (i j : TextIterator) : Except IteratorError Bool :=
  (iterDiff i j).map (fun d => decide (0 ≤ d))

/-- `operator-(text_iterator)`: `diff`. -/
def iterSub (i j : TextIterator) : Except IteratorError Int :=
  iterDiff i j

/-- `operator+(int)`: copy, then `move(+d)`. -/
def iterAddInt (i : TextIterator) (d : Int) : TextIterator :=
  { i with currentIndex := i.currentIndex + d }

/-- `operator-(int)`: copy, then `move(-d)`. -/
def iterSubInt (i : TextIterator) (d : Int) : TextIterator :=
  { i with currentIndex := i.currentIndex - d }

/-- `text_object::begin()`: `create_iterator(0)` on the object with the
given identity. -/
def ropeBegin (ident : Nat) (_r : Rope) : TextIterator :=
  ⟨ident, 0⟩

/-- `text_object::end()`: `create_iterator(length())`. -/
def ropeEnd (ident : Nat) (r : Rope) : TextIterator :=
  ⟨ident, ropeLength r⟩

/-! ## The environment of live buffers

C++ object creation extends the set of live `text_object`s and touches no
existing object (`text_replacement`'s constructor reads its base and patch
only through `const` methods).  The live objects are modelled as a list of
ropes; a buffer handle is an index into it. -/

/-- Creating a `text_replacement` from the buffers at `bIdx` and `pIdx`:
the new object's rope is appended, nothing else changes.  (With a dangling
handle nothing is created.) -/
def constructReplacement (st : List Rope) (bIdx pIdx : Nat) (i j k l : Int) : List Rope :=
  match st[bIdx]?, st[pIdx]? with
  | some rb, some rp => st ++ [makeRope rb i j rp k l]
  | _, _ => st

/-! ## Well-formedness of segment maps

`WFfrom a r` says the entries of `r` form a cumulative chain starting at
offset `a`: each entry's key is the previous key plus its segment's length,
and each segment lies inside its owning string.  This is the partition
invariant of the spec stated over the list of entries. -/

/-- Entries form a cumulative chain from `a` with in-bounds segments. -/
def WFfrom : Int → Rope → Prop
  | _, [] => True
  | a, en :: rest =>
      en.1 = a + (en.2.se - en.2.sb) ∧ 0 ≤ en.2.sb ∧ en.2.sb ≤ en.2.se ∧
        ((en.2.se : Int) ≤ en.2.owner.length) ∧ WFfrom en.1 rest

instance instDecidableWFfrom : (a : Int) → (r : Rope) → Decidable (WFfrom a r)
  | _, [] => .isTrue trivial
  | a, en :: rest =>
      have : Decidable (WFfrom en.1 rest) := instDecidableWFfrom en.1 rest
      inferInstanceAs (Decidable (_ ∧ _ ∧ _ ∧ _ ∧ _))

/-- Map keys are strictly increasing (what `std::map` guarantees of its
iteration order). -/
def StrictKeys : Rope → Prop
  | [] => True
  | x :: xs => (∀ y ∈ xs, x.1 < y.1) ∧ StrictKeys xs

instance instDecidableStrictKeys : (r : Rope) → Decidable (StrictKeys r)
  | [] => .isTrue trivial
  | x :: xs =>
      have : Decidable (StrictKeys xs) := instDecidableStrictKeys xs
      inferInstanceAs (Decidable (_ ∧ _))

/-- The invariant of every map reachable through the public interface. -/
def WFrope (r : Rope) : Prop :=
  WFfrom 0 r ∧ StrictKeys r

instance (r : Rope) : Decidable (WFrope r) :=
  inferInstanceAs (Decidable (_ ∧ _))

/-- The character content a segment map stands for: the concatenation of
its segments' characters. -/
def denote : Rope → List Char
  | [] => []
  | en :: rest => en.2.chars ++ denote rest

/-- Sum of the source-range lengths of a map's entries. -/
def sumLens (r : Rope) : Int :=
  (r.map (fun en => en.2.se - en.2.sb)).sum

end TextEdit

deriving instance DecidableEq for Except

namespace TextEdit

/-! ## Basic facts about well-formed segment maps -/

theorem Seg.length_chars (s : Seg) (h1 : 0 ≤ s.sb) (h2 : s.sb ≤ s.se)
    (h3 : (s.se : Int) ≤ s.owner.length) : s.chars.length = (s.se - s.sb).toNat := by
  simp only [Seg.chars, List.length_take, List.length_drop]
  omega

theorem denote_nil : denote [] = [] := rfl

theorem denote_cons (en : Int × Seg) (r : Rope) : denote (en :: r) = en.2.chars ++ denote r :=
  rfl

theorem denote_append (r1 r2 : Rope) : denote (r1 ++ r2) = denote r1 ++ denote r2 := by
  induction r1 with
  | nil => rfl
  | cons en rest ih => simp [denote_cons, ih]

theorem wf_mem {a : Int} {r : Rope} (hw : WFfrom a r) :
    ∀ x ∈ r, a ≤ x.1 - (x.2.se - x.2.sb) ∧ 0 ≤ x.2.sb ∧ x.2.sb ≤ x.2.se ∧
      (x.2.se : Int) ≤ x.2.owner.length := by
  induction r generalizing a with
  | nil => intro x hx; cases hx
  | cons en rest ih =>
      obtain ⟨hk, hsb, hse, hown, hrest⟩ := hw
      intro x hx
      rcases List.mem_cons.mp hx with hx | hx
      · subst hx
        exact ⟨by omega, hsb, hse, hown⟩
      · have := ih hrest x hx
        exact ⟨by omega, this.2⟩

theorem wf_getLast? {a : Int} {en : Int × Seg} :
    ∀ {r : Rope}, WFfrom a r → r.getLast? = some en → en.1 = a + (denote r).length
  | [], _, h => by cases h
  | [x], hw, h => by
      obtain ⟨hk, hsb, hse, hown, _⟩ := hw
      simp only [List.getLast?_singleton, Option.some.injEq] at h
      subst h
      have hlen : (denote [x]).length = x.2.chars.length := by
        simp [denote_cons, denote_nil]
      have hch := Seg.length_chars x.2 hsb hse hown
      omega
  | x :: y :: ys, hw, h => by
      obtain ⟨hk, hsb, hse, hown, hrest⟩ := hw
      rw [List.getLast?_cons_cons] at h
      have hlast := wf_getLast? hrest h
      have hlen : (denote (x :: y :: ys)).length =
          x.2.chars.length + (denote (y :: ys)).length := by
        rw [denote_cons, List.length_append]
      have hch := Seg.length_chars x.2 hsb hse hown
      omega

theorem ropeLength_eq_denote {r : Rope} (hw : WFfrom 0 r) :
    ropeLength r = ((denote r).length : Int) := by
  cases r with
  | nil => rfl
  | cons en rest =>
      have hne : (en :: rest : Rope) ≠ [] := by simp
      have h := List.getLast?_eq_getLast_of_ne_nil hne
      have := wf_getLast? hw h
      simp only [ropeLength, h]
      omega

theorem wf_append {a : Int} {r1 r2 : Rope} (h1 : WFfrom a r1)
    (h2 : WFfrom (a + (denote r1).length) r2) : WFfrom a (r1 ++ r2) := by
  induction r1 generalizing a with
  | nil => simpa [denote_nil] using h2
  | cons en rest ih =>
      obtain ⟨hk, hsb, hse, hown, hrest⟩ := h1
      refine ⟨hk, hsb, hse, hown, ih hrest ?_⟩
      have hlen : (denote (en :: rest)).length =
          en.2.chars.length + (denote rest).length := by
        simp [denote_cons]
      rw [hlen] at h2
      have hch : en.2.chars.length = (en.2.se - en.2.sb).toNat :=
        Seg.length_chars en.2 hsb hse hown
      have : a + ((en.2.se - en.2.sb).toNat + (denote rest).length : Nat) =
          en.1 + (denote rest).length := by push_cast; omega
      rw [hch] at h2
      rwa [this] at h2

/-- Character access agrees with the denotation: for a chain from `a`,
`at(i)` with `a ≤ i` inside the content returns character `i - a` of the
denoted string. -/
theorem ropeAt_ok {r : Rope} {a i : Int} (hw : WFfrom a r) (hai : a ≤ i)
    (hlt : i < a + (denote r).length) :
    ropeAt r i = .ok ((denote r).getD (i - a).toNat 'A') := by
  induction r generalizing a with
  | nil => simp [denote_nil] at hlt; omega
  | cons en rest ih =>
      obtain ⟨hk, hsb, hse, hown, hrest⟩ := hw
      have hch : en.2.chars.length = (en.2.se - en.2.sb).toNat :=
        Seg.length_chars en.2 hsb hse hown
      by_cases hik : i < en.1
      · have hub : upperBound (en :: rest) i = some en := by
          simp [upperBound, List.find?, hik]
        have hcond : 0 ≤ en.2.se - (en.1 - i) ∧
            en.2.se - (en.1 - i) < (en.2.owner.length : Int) := by omega
        have hgetlt : (i - a).toNat < en.2.chars.length := by omega
        have hid : (en.2.se - (en.1 - i)).toNat < en.2.owner.length := by omega
        have hstep : ropeAt (en :: rest) i =
            .ok (en.2.owner.getD (en.2.se - (en.1 - i)).toNat 'A') := by
          simp only [ropeAt, hub, hcond, and_self, dite_true, List.get_eq_getElem,
            List.getD_eq_getElem?_getD, List.getElem?_eq_getElem hid, Option.getD_some]
        have hrhs : (denote (en :: rest)).getD (i - a).toNat 'A' =
            en.2.owner.getD (en.2.se - (en.1 - i)).toNat 'A' := by
          have hatom : en.2.sb.toNat + (i - a).toNat = (en.2.se - (en.1 - i)).toNat := by
            omega
          simp only [List.getD_eq_getElem?_getD]
          rw [denote_cons, List.getElem?_append_left hgetlt]
          simp only [Seg.chars]
          rw [List.getElem?_take_of_lt (show (i - a).toNat < (en.2.se - en.2.sb).toNat by
              omega),
            List.getElem?_drop, hatom]
        rw [hstep, hrhs]
      · have hub : upperBound (en :: rest) i = upperBound rest i := by
          simp [upperBound, List.find?, hik]
        have hlen2 : i < en.1 + (denote rest).length := by
          have hl : (denote (en :: rest)).length =
              en.2.chars.length + (denote rest).length := by
            simp [denote_cons]
          omega
        have hrec := ih hrest (by omega) hlen2
        have hgetge : en.2.chars.length ≤ (i - a).toNat := by omega
        cases hub2 : upperBound rest i with
        | none =>
            rw [ropeAt, hub2] at hrec
            cases hrec
        | some en2 =>
            have h1 : ropeAt (en :: rest) i = ropeAt rest i := by
              simp only [ropeAt, hub, hub2]
            rw [h1, hrec]
            have hidx : (i - a).toNat - en.2.chars.length = (i - en.1).toNat := by omega
            simp only [denote_cons, List.getD_eq_getElem?_getD,
              List.getElem?_append_right hgetge, hidx]

/-- When `i` is at or beyond the content, `upper_bound` runs off the map. -/
theorem upperBound_none {r : Rope} {a i : Int} (hw : WFfrom a r)
    (hge : a + (denote r).length ≤ i) : upperBound r i = none := by
  induction r generalizing a with
  | nil => rfl
  | cons en rest ih =>
      obtain ⟨hk, hsb, hse, hown, hrest⟩ := hw
      have hch : en.2.chars.length = (en.2.se - en.2.sb).toNat :=
        Seg.length_chars en.2 hsb hse hown
      have hlen : (denote (en :: rest)).length = en.2.chars.length + (denote rest).length := by
        simp [denote_cons]
      have hik : ¬ i < en.1 := by omega
      have : upperBound (en :: rest) i = upperBound rest i := by
        simp [upperBound, List.find?, hik]
      rw [this]
      exact ih hrest (by omega)

/-- `at(i)` raises `text_out_of_range` exactly at the upper end. -/
theorem ropeAt_outOfRange {r : Rope} (hw : WFfrom 0 r) {i : Int}
    (hge : (denote r).length ≤ i) :
    ropeAt r i = .error (.outOfRange i (ropeLength r)) := by
  have : upperBound r i = none := upperBound_none hw (by omega)
  simp only [ropeAt, this]

/-- `mapM` over `Except` succeeds pointwise. -/
theorem mapM_ok_of_forall_ok {α β ε : Type} {f : α → Except ε β} {g : α → β} :
    ∀ (ns : List α), (∀ n ∈ ns, f n = .ok (g n)) → ns.mapM f = .ok (ns.map g) := by
  intro ns
  induction ns with
  | nil => intro _; rfl
  | cons m ms ihm =>
      intro hall
      rw [List.mapM_cons, hall m (by simp), ihm (fun n hn => hall n (by simp [hn]))]
      rfl

/-- `to_string` materialises the denotation. -/
theorem ropeToString_ok {r : Rope} (hw : WFfrom 0 r) :
    ropeToString r = .ok (denote r) := by
  have hlen : ropeLength r = ((denote r).length : Int) := ropeLength_eq_denote hw
  have hmap : ∀ n ∈ List.range (denote r).length,
      ropeAt r (Int.ofNat n) = .ok ((denote r).getD n 'A') := by
    intro n hn
    rw [List.mem_range] at hn
    have := ropeAt_ok hw (a := 0) (i := (n : Int)) (by omega) (by omega)
    simpa using this
  have hrange : (List.range (denote r).length).map (fun n => (denote r).getD n 'A') =
      denote r := by
    apply List.ext_getElem
    · simp
    · intro n h1 h2
      simp [List.getD_eq_getElem?_getD, List.getElem?_eq_getElem h2]
  rw [ropeToString, hlen]
  simp only [Int.toNat_natCast]
  rw [mapM_ok_of_forall_ok _ hmap, hrange]

/-! ## The trimmed views of `rope_trimmed_range` -/

theorem ubIdx_nil (x : Int) : ubIdx [] x = 0 := rfl

theorem ubIdx_cons (en : Int × Seg) (rest : Rope) (x : Int) :
    ubIdx (en :: rest) x = if en.1 ≤ x then ubIdx rest x + 1 else 0 := by
  by_cases h : en.1 ≤ x <;> simp [ubIdx, List.takeWhile_cons, h]

theorem ubIdx_le_length (r : Rope) (x : Int) : ubIdx r x ≤ r.length := by
  induction r with
  | nil => simp [ubIdx_nil]
  | cons en rest ih =>
      rw [ubIdx_cons]
      by_cases h : en.1 ≤ x <;> simp [h, List.length_cons] <;> omega

theorem ubIdx_mono {r : Rope} {x y : Int} (h : x ≤ y) : ubIdx r x ≤ ubIdx r y := by
  induction r with
  | nil => simp [ubIdx_nil]
  | cons en rest ih =>
      rw [ubIdx_cons, ubIdx_cons]
      by_cases hx : en.1 ≤ x
      · rw [if_pos hx, if_pos (le_trans hx h)]
        omega
      · rw [if_neg hx]
        omega

/-- A non-inverted window always selects a proper iterator range. -/
theorem viewProper_of_le {r : Rope} {nb ne : Int} (h : nb ≤ ne) : viewProper r nb ne := by
  have hmono := ubIdx_mono (r := r) h
  show ubIdx r nb ≤ if ubIdx r ne = r.length then ubIdx r ne else ubIdx r ne + 1
  by_cases hq : ubIdx r ne = r.length
  · rw [if_pos hq]
    exact hmono
  · rw [if_neg hq]
    omega

theorem ubIdx_eq_zero {r : Rope} {x : Int} (h : ∀ y ∈ r, x < y.1) : ubIdx r x = 0 := by
  cases r with
  | nil => rfl
  | cons en rest =>
      rw [ubIdx_cons, if_neg]
      have := h en (by simp)
      omega

theorem trimSel_nil (nb ne : Int) : trimSel [] nb ne = [] := rfl

theorem trimmedRange_nil (nb ne shift : Int) : trimmedRange [] nb ne shift = [] := rfl

theorem trimEndIdx_cons_le {en : Int × Seg} {rest : Rope} {ne : Int} (h : en.1 ≤ ne) :
    trimEndIdx (en :: rest) ne = trimEndIdx rest ne + 1 := by
  unfold trimEndIdx
  rw [ubIdx_cons, if_pos h]
  simp only [List.length_cons]
  by_cases hq : ubIdx rest ne = rest.length
  · rw [if_pos (by omega), if_pos hq]
  · rw [if_neg (by omega), if_neg hq]

/-- An entry wholly before the window is skipped by both bounds. -/
theorem trimSel_cons_skip {en : Int × Seg} {rest : Rope} {nb ne : Int}
    (hk : en.1 ≤ nb) (hk2 : en.1 ≤ ne) :
    trimSel (en :: rest) nb ne = trimSel rest nb ne := by
  unfold trimSel
  rw [ubIdx_cons, if_pos hk, trimEndIdx_cons_le hk2]
  rw [List.drop_succ_cons]
  congr 1
  omega

/-- When the window ends before the first entry, the selection is that
single entry (the unconditional `++it` of `rope_trimmed_range::end`). -/
theorem trimSel_cons_last {en : Int × Seg} {rest : Rope} {nb ne : Int}
    (hnb : ¬ en.1 ≤ nb) (hne : ¬ en.1 ≤ ne) :
    trimSel (en :: rest) nb ne = [en] := by
  unfold trimSel trimEndIdx
  rw [ubIdx_cons en rest nb, ubIdx_cons en rest ne, if_neg hnb, if_neg hne]
  simp [List.length_cons]

/-- When the window starts before the first entry and reaches beyond it,
the selection is the first entry followed by the selection of the rest from
the first entry's key. -/
theorem trimSel_cons_take {en : Int × Seg} {rest : Rope} {nb ne : Int}
    (hnb : ¬ en.1 ≤ nb) (hne : en.1 ≤ ne) (hstrict : ∀ y ∈ rest, en.1 < y.1) :
    trimSel (en :: rest) nb ne = en :: trimSel rest en.1 ne := by
  unfold trimSel
  rw [ubIdx_cons, if_neg hnb, trimEndIdx_cons_le hne]
  rw [ubIdx_eq_zero hstrict]
  simp [List.take_succ_cons]

/-- A narrowed segment denotes the corresponding window of the original
segment's characters. -/
theorem Seg.chars_sub (s : Seg) (w t : Int) (h1 : 0 ≤ s.sb) (hw : 0 ≤ w) (ht : 0 ≤ t)
    (hwt : w + t ≤ s.se - s.sb) :
    (Seg.mk s.owner (s.sb + w) (s.sb + w + t)).chars = (s.chars.drop w.toNat).take t.toNat := by
  simp only [Seg.chars]
  rw [List.drop_take, List.drop_drop, List.take_take]
  have hidx1 : (s.sb + w).toNat = s.sb.toNat + w.toNat := by omega
  have hidx2 : (s.sb + w + t - (s.sb + w)).toNat = t.toNat := by omega
  have hidx3 : min t.toNat ((s.se - s.sb).toNat - w.toNat) = t.toNat := by omega
  rw [hidx1, hidx2, hidx3]

/-- Entries at or after the window start are trimmed the same way for any
window start between the original one and their begin offset. -/
theorem trimNode_shift_window {nb ne shift k : Int} {x : Int × Seg}
    (hb : k ≤ x.1 - (x.2.se - x.2.sb)) (hnbk : nb ≤ k) :
    trimNode nb ne shift x = trimNode k ne (shift + (k - nb)) x := by
  unfold trimNode
  have h1 : max 0 (nb - (x.1 - (x.2.se - x.2.sb))) = 0 := by omega
  have h2 : max 0 (k - (x.1 - (x.2.se - x.2.sb))) = 0 := by omega
  have hkey : x.1 - nb + min 0 (ne - x.1) + shift =
      x.1 - k + min 0 (ne - x.1) + (shift + (k - nb)) := by ring
  rw [h1, h2, hkey]

/-- Every entry `rope_trimmed_range` selects comes from the underlying
map. -/
theorem trimSel_subset {r : Rope} {nb ne : Int} {x : Int × Seg}
    (hx : x ∈ trimSel r nb ne) : x ∈ r :=
  List.mem_of_mem_drop (List.mem_of_mem_take hx)

/-- Correctness of `rope_trimmed_range`: for a well-formed map denoting `s`
as a chain from `a`, the trimmed view of the window `[nb, ne)` with offset
shift `shift` is a chain from `shift` denoting `s[nb-a .. ne-a)`, and every
entry it enumerates satisfies the trimmer's `assert`s. -/
theorem trimSpec {r : Rope} {a nb ne : Int} (hw : WFfrom a r) (hs : StrictKeys r)
    (h0 : a ≤ nb) (hbe : nb ≤ ne) (hle : ne ≤ a + (denote r).length) (shift : Int) :
    WFfrom shift (trimmedRange r nb ne shift) ∧
      denote (trimmedRange r nb ne shift) =
        ((denote r).drop (nb - a).toNat).take (ne - nb).toNat ∧
      (∀ x ∈ trimSel r nb ne, nb ≤ x.1 ∧ x.1 - (x.2.se - x.2.sb) ≤ ne) := by
  induction r generalizing a nb shift with
  | nil =>
      refine ⟨trivial, ?_, by intro x hx; cases hx⟩
      simp [trimmedRange_nil, denote_nil]
  | cons en rest ih =>
      obtain ⟨hk, hsb, hse, hown, hwrest⟩ := hw
      obtain ⟨hstrict, hsrest⟩ := hs
      have hch := Seg.length_chars en.2 hsb hse hown
      have hlenr : (denote (en :: rest)).length =
          en.2.chars.length + (denote rest).length := by
        simp [denote_cons]
      by_cases hknb : en.1 ≤ nb
      · -- the head entry lies wholly before the window and is skipped
        have hkne : en.1 ≤ ne := le_trans hknb hbe
        have hsel : trimSel (en :: rest) nb ne = trimSel rest nb ne :=
          trimSel_cons_skip hknb hkne
        have htrim : trimmedRange (en :: rest) nb ne shift =
            trimmedRange rest nb ne shift := by
          unfold trimmedRange
          rw [hsel]
        obtain ⟨hwf', hden', hass'⟩ :=
          ih hwrest hsrest hknb hbe (by omega) shift
        refine ⟨htrim ▸ hwf', ?_, by rw [hsel]; exact hass'⟩
        rw [htrim, hden', denote_cons, List.drop_append_eq_append_drop,
          List.drop_of_length_le (show en.2.chars.length ≤ (nb - a).toNat by omega),
          List.nil_append]
        congr 2
        omega
      · by_cases hkne : en.1 ≤ ne
        · -- the head entry is the first of the window; the rest follows
          have hsel : trimSel (en :: rest) nb ne = en :: trimSel rest en.1 ne :=
            trimSel_cons_take hknb hkne hstrict
          have hcong : ∀ x ∈ trimSel rest en.1 ne,
              trimNode nb ne shift x = trimNode en.1 ne (shift + (en.1 - nb)) x := by
            intro x hx
            exact trimNode_shift_window ((wf_mem hwrest x (trimSel_subset hx)).1)
              (by omega)
          have hmap : trimmedRange (en :: rest) nb ne shift =
              trimNode nb ne shift en ::
                trimmedRange rest en.1 ne (shift + (en.1 - nb)) := by
            unfold trimmedRange
            rw [hsel, List.map_cons]
            congr 1
            exact List.map_congr_left hcong
          obtain ⟨hwf', hden', hass'⟩ :=
            ih hwrest hsrest (le_refl en.1) hkne (by omega) (shift + (en.1 - nb))
          simp only [sub_self, Int.toNat_zero, List.drop_zero] at hden'
          have hhead : trimNode nb ne shift en =
              (en.1 - nb + shift,
                ⟨en.2.owner, en.2.sb + (nb - a), en.2.se⟩) := by
            unfold trimNode
            have h1 : max 0 (nb - (en.1 - (en.2.se - en.2.sb))) = nb - a := by omega
            have h2 : min 0 (ne - en.1) = 0 := by omega
            rw [h1, h2]
            simp only [add_zero]
          have hheadchars :
              (Seg.mk en.2.owner (en.2.sb + (nb - a)) en.2.se).chars =
                (en.2.chars.drop (nb - a).toNat).take (en.1 - nb).toNat := by
            have := Seg.chars_sub en.2 (nb - a) (en.1 - nb) hsb (by omega) (by omega)
              (by omega)
            have harg : en.2.sb + (nb - a) + (en.1 - nb) = en.2.se := by omega
            rwa [harg] at this
          refine ⟨?_, ?_, ?_⟩
          · rw [hmap, hhead]
            refine ⟨?_, ?_, ?_, ?_, ?_⟩
            · show en.1 - nb + shift = shift + (en.2.se - (en.2.sb + (nb - a)))
              omega
            · show 0 ≤ en.2.sb + (nb - a)
              omega
            · show en.2.sb + (nb - a) ≤ en.2.se
              omega
            · show (en.2.se : Int) ≤ en.2.owner.length
              exact hown
            · show WFfrom (en.1 - nb + shift)
                (trimmedRange rest en.1 ne (shift + (en.1 - nb)))
              rw [show en.1 - nb + shift = shift + (en.1 - nb) from by ring]
              exact hwf'
          · rw [hmap, denote_cons, hhead, hheadchars, hden']
            rw [denote_cons, List.drop_append_eq_append_drop]
            have hz : (nb - a).toNat - en.2.chars.length = 0 := by omega
            rw [hz, List.drop_zero, List.take_append_eq_append_take]
            have hlen2 : (en.2.chars.drop (nb - a).toNat).length =
                (en.1 - nb).toNat := by
              rw [List.length_drop]
              omega
            congr 1
            · rw [List.take_of_length_le (by omega),
                List.take_of_length_le (by omega)]
            · rw [hlen2]
              congr 2
              omega
          · rw [hsel]
            intro x hx
            rcases List.mem_cons.mp hx with hx | hx
            · subst hx
              exact ⟨by omega, by omega⟩
            · have h1 := hass' x hx
              have h2 := (wf_mem hwrest x (trimSel_subset hx)).1
              exact ⟨by omega, h1.2⟩
        · -- the window ends inside (or at the begin of) the head entry
          have hsel : trimSel (en :: rest) nb ne = [en] :=
            trimSel_cons_last hknb hkne
          have htrim : trimmedRange (en :: rest) nb ne shift =
              [trimNode nb ne shift en] := by
            unfold trimmedRange
            rw [hsel, List.map_cons, List.map_nil]
          have hhead : trimNode nb ne shift en =
              (ne - nb + shift,
                ⟨en.2.owner, en.2.sb + (nb - a), en.2.se + (ne - en.1)⟩) := by
            unfold trimNode
            have h1 : max 0 (nb - (en.1 - (en.2.se - en.2.sb))) = nb - a := by omega
            have h2 : min 0 (ne - en.1) = ne - en.1 := by omega
            have hkey : en.1 - nb + (ne - en.1) + shift = ne - nb + shift := by ring
            rw [h1, h2, hkey]
          have hheadchars :
              (Seg.mk en.2.owner (en.2.sb + (nb - a)) (en.2.se + (ne - en.1))).chars =
                (en.2.chars.drop (nb - a).toNat).take (ne - nb).toNat := by
            have := Seg.chars_sub en.2 (nb - a) (ne - nb) hsb (by omega) (by omega)
              (by omega)
            have harg : en.2.sb + (nb - a) + (ne - nb) = en.2.se + (ne - en.1) := by
              omega
            rwa [harg] at this
          refine ⟨?_, ?_, ?_⟩
          · rw [htrim, hhead]
            refine ⟨?_, ?_, ?_, ?_, trivial⟩
            · show ne - nb + shift =
                shift + ((en.2.se + (ne - en.1)) - (en.2.sb + (nb - a)))
              omega
            · show 0 ≤ en.2.sb + (nb - a)
              omega
            · show en.2.sb + (nb - a) ≤ en.2.se + (ne - en.1)
              omega
            · show (en.2.se + (ne - en.1) : Int) ≤ en.2.owner.length
              omega
          · rw [htrim, denote_cons, denote_nil, List.append_nil, hhead, hheadchars]
            rw [denote_cons, List.drop_append_eq_append_drop]
            have hz : (nb - a).toNat - en.2.chars.length = 0 := by omega
            rw [hz, List.drop_zero, List.take_append_eq_append_take]
            have hlen2 : (en.2.chars.drop (nb - a).toNat).length =
                (en.1 - nb).toNat := by
              rw [List.length_drop]
              omega
            have hz2 : (ne - nb).toNat - (en.2.chars.drop (nb - a).toNat).length = 0 := by
              rw [hlen2]
              omega
            rw [hz2, List.take_zero, List.append_nil]
          · rw [hsel]
            intro x hx
            rcases List.mem_cons.mp hx with hx | hx
            · subst hx
              exact ⟨by omega, by omega⟩
            · cases hx

/-! ## Rebuilding a `std::map` from the joined entry sequence -/

theorem chars_eq_nil_of_len_zero {s : Seg} (h : s.se - s.sb = 0) : s.chars = [] := by
  simp [Seg.chars, h]

theorem mapInsert_append {acc : Rope} {en : Int × Seg} (h : ∀ x ∈ acc, x.1 < en.1) :
    mapInsert acc en = acc ++ [en] := by
  induction acc with
  | nil => rfl
  | cons x xs ih =>
      have hx := h x (by simp)
      rw [mapInsert, if_neg (by omega), if_pos hx, ih (fun y hy => h y (by simp [hy]))]
      rfl

theorem mapInsert_dup {acc : Rope} {en : Int × Seg} (hle : ∀ x ∈ acc, x.1 ≤ en.1)
    (hs : StrictKeys acc) (hex : ∃ y ∈ acc, y.1 = en.1) : mapInsert acc en = acc := by
  induction acc with
  | nil =>
      obtain ⟨y, hy, _⟩ := hex
      cases hy
  | cons x xs ih =>
      obtain ⟨hhead, hsrest⟩ := hs
      by_cases hx : x.1 = en.1
      · rw [mapInsert, if_neg (by omega), if_neg (by omega)]
      · have hxlt : x.1 < en.1 := lt_of_le_of_ne (hle x (by simp)) hx
        obtain ⟨y, hy, hyk⟩ := hex
        rcases List.mem_cons.mp hy with hy | hy
        · subst hy
          omega
        · rw [mapInsert, if_neg (by omega), if_pos hxlt,
            ih (fun z hz => hle z (by simp [hz])) hsrest ⟨y, hy, hyk⟩]

theorem strict_append_singleton {acc : Rope} {en : Int × Seg} (hs : StrictKeys acc)
    (h : ∀ x ∈ acc, x.1 < en.1) : StrictKeys (acc ++ [en]) := by
  induction acc with
  | nil => exact ⟨fun y hy => absurd hy (List.not_mem_nil y), trivial⟩
  | cons x xs ih =>
      obtain ⟨hhead, hsrest⟩ := hs
      refine ⟨?_, ih hsrest (fun y hy => h y (by simp [hy]))⟩
      intro y hy
      rcases List.mem_append.mp hy with hy | hy
      · exact hhead y hy
      · rcases List.mem_singleton.mp hy with rfl
        exact h x (by simp)

/-- The fold of `std::map::insert` over a chain of entries: every entry
goes to the back; an entry whose key is already present (necessarily a
zero-length one) is discarded.  The result extends the accumulator by a
chain with the same character content. -/
theorem foldInsert_spec :
    ∀ (l : Rope) (a : Int) (acc : Rope), WFfrom a l → StrictKeys acc →
      (∀ x ∈ acc, x.1 ≤ a) → (acc = [] ∨ ∃ y ∈ acc, y.1 = a) →
      ∃ tl, List.foldl mapInsert acc l = acc ++ tl ∧ WFfrom a tl ∧
        StrictKeys (acc ++ tl) ∧ denote tl = denote l
  | [], a, acc, _, hs, _, _ => ⟨[], by simp, trivial, by simpa using hs, rfl⟩
  | en :: rest, a, acc, hw, hs, hle, hex => by
      obtain ⟨hk, hsb, hse, hown, hwrest⟩ := hw
      by_cases hlen : en.2.se - en.2.sb = 0
      · have hchars : en.2.chars = [] := chars_eq_nil_of_len_zero hlen
        have hka : en.1 = a := by omega
        rcases hex with hacc | hex
        · subst hacc
          have hstep : List.foldl mapInsert [] (en :: rest) =
              List.foldl mapInsert [en] rest := by
            rfl
          obtain ⟨tl, heq, hwf, hstl, hden⟩ :=
            foldInsert_spec rest en.1 [en] hwrest
              ⟨fun y hy => absurd hy (List.not_mem_nil y), trivial⟩
              (by intro x hx; rcases List.mem_singleton.mp hx with rfl; omega)
              (Or.inr ⟨en, by simp, rfl⟩)
          refine ⟨en :: tl, ?_, ?_, ?_, ?_⟩
          · rw [hstep, heq]
            rfl
          · exact ⟨hk, hsb, hse, hown, hka ▸ hwf⟩
          · simpa using hstl
          · rw [denote_cons, denote_cons, hden]
        · have hstep : mapInsert acc en = acc :=
            mapInsert_dup (fun x hx => by have := hle x hx; omega) hs
              (by obtain ⟨y, hy, hyk⟩ := hex; exact ⟨y, hy, by omega⟩)
          obtain ⟨tl, heq, hwf, hstl, hden⟩ :=
            foldInsert_spec rest en.1 acc hwrest hs
              (fun x hx => by have := hle x hx; omega)
              (Or.inr (by obtain ⟨y, hy, hyk⟩ := hex; exact ⟨y, hy, by omega⟩))
          refine ⟨tl, ?_, hka ▸ hwf, hstl, ?_⟩
          · rw [List.foldl_cons, hstep, heq]
          · rw [hden, denote_cons, hchars, List.nil_append]
      · have hkgt : a < en.1 := by omega
        have hstep : mapInsert acc en = acc ++ [en] :=
          mapInsert_append (fun x hx => by have := hle x hx; omega)
        obtain ⟨tl, heq, hwf, hstl, hden⟩ :=
          foldInsert_spec rest en.1 (acc ++ [en]) hwrest
            (strict_append_singleton hs (fun x hx => by have := hle x hx; omega))
            (by
              intro x hx
              rcases List.mem_append.mp hx with hx | hx
              · have := hle x hx; omega
              · rcases List.mem_singleton.mp hx with rfl; omega)
            (Or.inr ⟨en, by simp, rfl⟩)
        refine ⟨en :: tl, ?_, ⟨hk, hsb, hse, hown, hwf⟩, ?_, ?_⟩
        · rw [List.foldl_cons, hstep, heq, List.append_assoc]
          rfl
        · rw [List.append_assoc] at hstl
          simpa using hstl
        · rw [denote_cons, denote_cons, hden]

/-- `std::map` range construction preserves well-formedness, strictness
and content of a joined chain. -/
theorem mapOfList_spec {l : Rope} (hw : WFfrom 0 l) :
    WFfrom 0 (mapOfList l) ∧ StrictKeys (mapOfList l) ∧ denote (mapOfList l) = denote l := by
  obtain ⟨tl, heq, hwf, hstl, hden⟩ :=
    foldInsert_spec l 0 [] hw trivial (by intro x hx; cases hx) (Or.inl rfl)
  rw [List.nil_append] at heq
  rw [mapOfList, heq]
  exact ⟨hwf, by simpa using hstl, hden⟩

/-! ## The replacement construction -/

/-- The three joined trimmed views of `make_rope`, before map
reconstruction. -/
theorem makeRope_joined_spec {rb rp : Rope} (hwb : WFrope rb) (hwp : WFrope rp)
    {i j k l : Int} (h0i : 0 ≤ i) (hij : i ≤ j) (hjL : j ≤ ropeLength rb)
    (h0k : 0 ≤ k) (hkl : k ≤ l) (hlL : l ≤ ropeLength rp) :
    WFfrom 0
        (trimmedRange rb 0 i 0 ++
          (trimmedRange rp k l i ++ trimmedRange rb j (ropeLength rb) (i + l - k))) ∧
      denote
          (trimmedRange rb 0 i 0 ++
            (trimmedRange rp k l i ++ trimmedRange rb j (ropeLength rb) (i + l - k))) =
        (denote rb).take i.toNat ++
          (((denote rp).drop k.toNat).take (l - k).toNat ++ (denote rb).drop j.toNat) ∧
      makeRopeAsserts rb i j rp k l := by
  obtain ⟨hwb0, hwbs⟩ := hwb
  obtain ⟨hwp0, hwps⟩ := hwp
  have hLb : ropeLength rb = ((denote rb).length : Int) := ropeLength_eq_denote hwb0
  have hLp : ropeLength rp = ((denote rp).length : Int) := ropeLength_eq_denote hwp0
  obtain ⟨hwfPre, hdenPre, hassPre⟩ :=
    trimSpec hwb0 hwbs (le_refl 0) h0i (by omega) 0
  obtain ⟨hwfPat, hdenPat, hassPat⟩ :=
    trimSpec hwp0 hwps h0k hkl (by omega) i
  obtain ⟨hwfPost, hdenPost, hassPost⟩ :=
    trimSpec hwb0 hwbs (by omega : (0 : Int) ≤ j) (by omega)
      (by omega : ropeLength rb ≤ 0 + (denote rb).length) (i + l - k)
  simp only [sub_zero, Int.toNat_zero, List.drop_zero] at hdenPre hdenPat hdenPost
  have hdenPost' : denote (trimmedRange rb j (ropeLength rb) (i + l - k)) =
      (denote rb).drop j.toNat := by
    rw [hdenPost, List.take_of_length_le]
    rw [List.length_drop]
    omega
  have hlenPre : (denote (trimmedRange rb 0 i 0)).length = i.toNat := by
    rw [hdenPre, List.length_take]
    omega
  have hlenPat : (denote (trimmedRange rp k l i)).length = (l - k).toNat := by
    rw [hdenPat, List.length_take, List.length_drop]
    omega
  refine ⟨?_, ?_, ?_⟩
  · refine wf_append hwfPre ?_
    rw [hlenPre, show (0 : Int) + (i.toNat : Int) = i by omega]
    refine wf_append hwfPat ?_
    rw [hlenPat, show i + ((l - k).toNat : Int) = i + l - k by omega]
    exact hwfPost
  · rw [denote_append, denote_append, hdenPre, hdenPat, hdenPost']
  · exact ⟨⟨by omega, by omega, by omega, by omega⟩, hassPre, hassPat, hassPost⟩

/-- `make_rope` under valid bounds: the result is a well-formed map
whose content splices the patch window into the cut of the base, and every
construction `assert` passes. -/
theorem makeRope_spec {rb rp : Rope} (hwb : WFrope rb) (hwp : WFrope rp)
    {i j k l : Int} (h0i : 0 ≤ i) (hij : i ≤ j) (hjL : j ≤ ropeLength rb)
    (h0k : 0 ≤ k) (hkl : k ≤ l) (hlL : l ≤ ropeLength rp) :
    WFrope (makeRope rb i j rp k l) ∧
      denote (makeRope rb i j rp k l) =
        (denote rb).take i.toNat ++
          (((denote rp).drop k.toNat).take (l - k).toNat ++ (denote rb).drop j.toNat) ∧
      makeRopeAsserts rb i j rp k l := by
  obtain ⟨hwfJ, hdenJ, hass⟩ := makeRope_joined_spec hwb hwp h0i hij hjL h0k hkl hlL
  obtain ⟨hwfM, hstM, hdenM⟩ := mapOfList_spec hwfJ
  exact ⟨⟨hwfM, hstM⟩, by rw [makeRope, hdenM, hdenJ], hass⟩

/-- The length bookkeeping of a replacement. -/
theorem makeRope_length {rb rp : Rope} (hwb : WFrope rb) (hwp : WFrope rp)
    {i j k l : Int} (h0i : 0 ≤ i) (hij : i ≤ j) (hjL : j ≤ ropeLength rb)
    (h0k : 0 ≤ k) (hkl : k ≤ l) (hlL : l ≤ ropeLength rp) :
    ropeLength (makeRope rb i j rp k l) = ropeLength rb - (j - i) + (l - k) := by
  obtain ⟨⟨hwfM, _⟩, hdenM, _⟩ := makeRope_spec hwb hwp h0i hij hjL h0k hkl hlL
  have hLb : ropeLength rb = ((denote rb).length : Int) := ropeLength_eq_denote hwb.1
  have hLm : ropeLength (makeRope rb i j rp k l) =
      ((denote (makeRope rb i j rp k l)).length : Int) := ropeLength_eq_denote hwfM
  have hLp : ropeLength rp = ((denote rp).length : Int) := ropeLength_eq_denote hwp.1
  rw [hLm, hdenM]
  simp only [List.length_append, List.length_take, List.length_drop]
  omega

/-- Positive segment lengths after the head of a strict chain. -/
theorem chain_pos_of_gt {a : Int} :
    ∀ {r : Rope}, WFfrom a r → StrictKeys r → (∀ x ∈ r, a < x.1) →
      ∀ x ∈ r, 0 < x.2.se - x.2.sb
  | [], _, _, _ => by intro x hx; cases hx
  | en :: rest, hw, hs, hgt => by
      obtain ⟨hk, hsb, hse, hown, hwrest⟩ := hw
      obtain ⟨hstrict, hsrest⟩ := hs
      intro x hx
      rcases List.mem_cons.mp hx with hx | hx
      · subst hx
        have := hgt x (by simp)
        omega
      · exact chain_pos_of_gt hwrest hsrest hstrict x hx

/-- In a well-formed strict map every zero-length entry sits at the head
with key equal to the chain start. -/
theorem zero_length_only_at_head {r : Rope} (hw : WFfrom 0 r) (hs : StrictKeys r) :
    (∀ x ∈ r.tail, 0 < x.2.se - x.2.sb) ∧
      (∀ x ∈ r, x.2.se - x.2.sb = 0 → x.1 = 0) := by
  cases r with
  | nil =>
      exact ⟨fun x hx => absurd hx (List.not_mem_nil x),
        fun x hx => absurd hx (List.not_mem_nil x)⟩
  | cons en rest =>
      obtain ⟨hk, hsb, hse, hown, hwrest⟩ := hw
      obtain ⟨hstrict, hsrest⟩ := hs
      have hpos := chain_pos_of_gt hwrest hsrest hstrict
      refine ⟨hpos, ?_⟩
      intro x hx hzero
      rcases List.mem_cons.mp hx with hx | hx
      · subst hx
        omega
      · have := hpos x hx
        omega

/-- The sum of the source-range lengths of a chain is its content length. -/
theorem sumLens_eq_length {a : Int} :
    ∀ {r : Rope}, WFfrom a r → sumLens r = ((denote r).length : Int)
  | [], _ => rfl
  | en :: rest, hw => by
      obtain ⟨hk, hsb, hse, hown, hwrest⟩ := hw
      have hch := Seg.length_chars en.2 hsb hse hown
      have hrest := sumLens_eq_length hwrest
      simp only [sumLens, List.map_cons, List.sum_cons, denote_cons, List.length_append]
      rw [show ((en.2.chars.length + (denote rest).length : Nat) : Int) =
        (en.2.chars.length : Int) + ((denote rest).length : Int) by push_cast; ring]
      rw [← hrest]
      simp only [sumLens]
      omega

/-! ## Sanity checks of the embedding on the spec's worked example -/

example : ropeToString (string_to_rope ['a', 'b']) = .ok ['a', 'b'] := by decide

example :
    ropeToString
        (makeRope (string_to_rope ['a', 'b']) 0 0 (string_to_rope ['x']) 0 1) =
      .ok ['x', 'a', 'b'] := by decide

example :
    ropeLength
        (makeRope (string_to_rope ['a', 'b', 'c']) 1 2 (string_to_rope ['x', 'y']) 0 2) = 4 := by
  decide

example :
    ropeToString
        (makeRope (string_to_rope ['a', 'b', 'c']) 1 2 (string_to_rope ['x', 'y']) 0 2) =
      .ok ['a', 'x', 'y', 'c'] := by decide

/-! ## Error handling and iterator claims -/

/-- C3 (counterexample): a replacement built with valid bounds
(`cut_from = cut_to = 0`, `patch_from = 0`, `patch_to = 1`) passes every
construction `assert`, yet its segment map starts with a zero-length entry
(`end_offset 0`, source range `[0, 0)` of the base string): the map does
contain a zero-length entry, so zero-length entries are not always
omitted. -/
theorem replacement_map_with_zero_length_entry :
    makeRopeAsserts (string_to_rope ['a', 'b']) 0 0 (string_to_rope ['x']) 0 1 ∧
      (makeRope (string_to_rope ['a', 'b']) 0 0 (string_to_rope ['x']) 0 1).head? =
        some (0, ⟨['a', 'b'], 0, 0⟩) := by
  decide

/-- C4 (counterexample): two invalid-bounds constructions over base
`"abc"` and patch `"x"` that do not fail: the inverted cut range
`cut_from = 2 > cut_to = 1` (all four offsets inside `[0, length]`), and
the negative bound `cut_to = -1` (with `cut_from = 0`).  Both pass the
four explicit `assert`s, select only proper iterator ranges, and pass
every trimmer `assert`, so construction completes and returns a buffer
instead of failing at construction time. -/
theorem invalid_cut_bounds_not_detected :
    (makeRopeChecked (string_to_rope ['a', 'b', 'c']) 2 1 (string_to_rope ['x']) 0 1).isOk =
        true ∧
      (makeRopeChecked (string_to_rope ['a', 'b', 'c']) 0 (-1)
            (string_to_rope ['x']) 0 1).isOk =
        true := by
  decide

/-- C5 (behaviour at the failing input): on the non-empty leaf `"a"`,
`at(-1)` does not raise `text_out_of_range`: `upper_bound(-1)` finds the
first segment, and the code dereferences `segment_end - (end_offset + 1)`,
one position before the owning string — an unchecked out-of-bounds
dereference.  `at(1)` and `at(length)` do raise `text_out_of_range`, and
in-range access succeeds, so the range check only guards the upper end. -/
theorem at_negative_index_dereferences_out_of_bounds :
    ropeAt (string_to_rope ['a']) (-1) = .error .undefinedDeref ∧
      ropeAt (string_to_rope ['a']) 1 = .error (.outOfRange 1 1) ∧
        ropeAt (string_to_rope ['a']) 0 = .ok 'a' ∧
          ropeAt (string_to_rope []) (-1) = .error (.outOfRange (-1) 0) := by
  decide

/-- C6: for iterators whose buffer identities differ, each of the six
relational comparisons and the subtraction raises `iterator_mismatch`;
when the identities agree, none of them raises it. -/
theorem cross_buffer_iterator_operations (it1 it2 : TextIterator) :
    (it1.target ≠ it2.target →
        iterEq it1 it2 = .error .iteratorMismatch ∧
          iterNe it1 it2 = .error .iteratorMismatch ∧
            iterLt it1 it2 = .error .iteratorMismatch ∧
              iterGt it1 it2 = .error .iteratorMismatch ∧
                iterLe it1 it2 = .error .iteratorMismatch ∧
                  iterGe it1 it2 = .error .iteratorMismatch ∧
                    iterSub it1 it2 = .error .iteratorMismatch) ∧
      (it1.target = it2.target →
          (iterEq it1 it2).isOk = true ∧
            (iterNe it1 it2).isOk = true ∧
              (iterLt it1 it2).isOk = true ∧
                (iterGt it1 it2).isOk = true ∧
                  (iterLe it1 it2).isOk = true ∧
                    (iterGe it1 it2).isOk = true ∧
                      (iterSub it1 it2).isOk = true) := by
  constructor
  · intro h
    simp [iterEq, iterNe, iterLt, iterGt, iterLe, iterGe, iterSub, iterDiff, h, Except.map]
  · intro h
    simp [iterEq, iterNe, iterLt, iterGt, iterLe, iterGe, iterSub, iterDiff, h, Except.isOk,
      Except.toBool, Except.map]

/-- C6 (witness): concrete iterators into two distinct buffers and into one
shared buffer. -/
theorem cross_buffer_iterator_operations_witness :
    iterSub ⟨0, 1⟩ ⟨1, 1⟩ = .error .iteratorMismatch ∧ (iterSub ⟨2, 5⟩ ⟨2, 3⟩).isOk = true :=
  ⟨((cross_buffer_iterator_operations ⟨0, 1⟩ ⟨1, 1⟩).1 (by decide)).2.2.2.2.2.2,
    ((cross_buffer_iterator_operations ⟨2, 5⟩ ⟨2, 3⟩).2 (by decide)).2.2.2.2.2.2⟩

/-- C9: moving an iterator by `n` and back by `n` restores it exactly, and
subtraction of two iterators of the same buffer yields the difference of
their absolute indices. -/
theorem iterator_arithmetic (it : TextIterator) (n : Int) (it1 it2 : TextIterator) :
    iterSubInt (iterAddInt it n) n = it ∧
      (it1.target = it2.target →
        iterSub it1 it2 = .ok (it1.currentIndex - it2.currentIndex)) := by
  constructor
  · cases it
    simp [iterSubInt, iterAddInt]
  · intro h
    simp [iterSub, iterDiff, h]

/-- C9 (witness): a concrete round trip and a concrete subtraction. -/
theorem iterator_arithmetic_witness :
    iterSubInt (iterAddInt ⟨7, 4⟩ (-9)) (-9) = ⟨7, 4⟩ ∧ iterSub ⟨7, 10⟩ ⟨7, 4⟩ = .ok 6 :=
  ⟨(iterator_arithmetic ⟨7, 4⟩ (-9) ⟨7, 10⟩ ⟨7, 4⟩).1,
    (iterator_arithmetic ⟨7, 4⟩ (-9) ⟨7, 10⟩ ⟨7, 4⟩).2 rfl⟩

/-- C8: constructing a replacement only appends a new object to the
environment of live buffers: every pre-existing buffer is looked up
unchanged afterwards, so its `to_string` and `length` values are what they
were before the construction. -/
theorem construction_leaves_inputs_unchanged (st : List Rope) (bIdx pIdx : Nat)
    (i j k l : Int) (n : Nat) (hn : n < st.length) :
    (constructReplacement st bIdx pIdx i j k l)[n]? = st[n]? ∧
      ((constructReplacement st bIdx pIdx i j k l)[n]?).map ropeToString =
          (st[n]?).map ropeToString ∧
        ((constructReplacement st bIdx pIdx i j k l)[n]?).map ropeLength =
          (st[n]?).map ropeLength := by
  have key : (constructReplacement st bIdx pIdx i j k l)[n]? = st[n]? := by
    unfold constructReplacement
    cases hb : st[bIdx]? with
    | none => rfl
    | some rb =>
        cases hp : st[pIdx]? with
        | none => rfl
        | some rp => exact List.getElem?_append_left hn
  exact ⟨key, by rw [key], by rw [key]⟩

/-- C8 (witness): a concrete two-buffer environment. -/
theorem construction_leaves_inputs_unchanged_witness :
    (constructReplacement [string_to_rope ['a', 'b'], string_to_rope ['x']] 0 1 1 2 0 1)[0]? =
        some (string_to_rope ['a', 'b']) ∧
      (0 : Nat) < 2 :=
  ⟨((construction_leaves_inputs_unchanged
        [string_to_rope ['a', 'b'], string_to_rope ['x']] 0 1 1 2 0 1 0 (by decide)).1).trans
      (by decide),
    by decide⟩

/-- C1: for a replacement built with valid bounds
`0 ≤ i ≤ j ≤ length(b)`, `0 ≤ k ≤ l ≤ length(patch)`, the materialised
content is `toString(b)[0:i] ++ toString(patch)[k:l] ++ toString(b)[j:]`,
and character access at every offset of the result returns the
corresponding character of that spliced string. -/
theorem replacement_materializes_spliced_content (rb rp : Rope) (i j k l : Int)
    (hwb : WFrope rb) (hwp : WFrope rp)
    (h0i : 0 ≤ i) (hij : i ≤ j) (hjL : j ≤ ropeLength rb)
    (h0k : 0 ≤ k) (hkl : k ≤ l) (hlL : l ≤ ropeLength rp)
    (db dp : List Char)
    (hdb : ropeToString rb = .ok db) (hdp : ropeToString rp = .ok dp) :
    ropeToString (makeRope rb i j rp k l) =
        .ok (db.take i.toNat ++ ((dp.drop k.toNat).take (l - k).toNat ++ db.drop j.toNat)) ∧
      ∀ (n : Nat) (c : Char),
        (db.take i.toNat ++
            ((dp.drop k.toNat).take (l - k).toNat ++ db.drop j.toNat))[n]? = some c →
          ropeAt (makeRope rb i j rp k l) (Int.ofNat n) = .ok c := by
  obtain rfl : db = denote rb := by
    have h := ropeToString_ok hwb.1
    rw [hdb] at h
    exact Except.ok.inj h
  obtain rfl : dp = denote rp := by
    have h := ropeToString_ok hwp.1
    rw [hdp] at h
    exact Except.ok.inj h
  obtain ⟨⟨hwfM, hstM⟩, hdenM, _⟩ := makeRope_spec hwb hwp h0i hij hjL h0k hkl hlL
  constructor
  · rw [ropeToString_ok hwfM, hdenM]
  · intro n c hn
    rw [Int.ofNat_eq_natCast]
    have hn' := hn
    rw [List.getElem?_eq_some] at hn'
    obtain ⟨hlt, hval⟩ := hn'
    have hat := ropeAt_ok hwfM (a := 0) (i := (n : Int)) (by omega)
      (by rw [hdenM]; omega)
    rw [hat, hdenM]
    have hidx : ((n : Int) - 0).toNat = n := by omega
    rw [hidx, List.getD_eq_getElem?_getD, hn, Option.getD_some]

/-- C1 (witness): replacing `"b"` of `"abc"` by `"xy"`. -/
theorem replacement_materializes_spliced_content_witness :
    ropeToString
        (makeRope (string_to_rope ['a', 'b', 'c']) 1 2 (string_to_rope ['x', 'y']) 0 2) =
      .ok ['a', 'x', 'y', 'c'] :=
  ((replacement_materializes_spliced_content
        (string_to_rope ['a', 'b', 'c']) (string_to_rope ['x', 'y']) 1 2 0 2
        (by decide) (by decide) (by decide) (by decide) (by decide) (by decide)
        (by decide) (by decide)
        ['a', 'b', 'c'] ['x', 'y'] (by decide) (by decide)).1).trans (by decide)

/-- C2: the length of a replacement built with valid bounds is
`length(b) - (j - i) + (l - k)`; and for any buffer, `length()` is the
`end_offset` of the last segment-map entry, or `0` when the map is
empty. -/
theorem replacement_length_formula (rb rp : Rope) (i j k l : Int)
    (hwb : WFrope rb) (hwp : WFrope rp)
    (h0i : 0 ≤ i) (hij : i ≤ j) (hjL : j ≤ ropeLength rb)
    (h0k : 0 ≤ k) (hkl : k ≤ l) (hlL : l ≤ ropeLength rp) :
    ropeLength (makeRope rb i j rp k l) = ropeLength rb - (j - i) + (l - k) ∧
      ∀ r' : Rope, (r' = [] → ropeLength r' = 0) ∧
        ∀ (h : r' ≠ []), ropeLength r' = (r'.getLast h).1 := by
  refine ⟨makeRope_length hwb hwp h0i hij hjL h0k hkl hlL, ?_⟩
  intro r'
  refine ⟨?_, ?_⟩
  · rintro rfl
    rfl
  · intro h
    simp [ropeLength, List.getLast?_eq_getLast_of_ne_nil h]

/-- C2 (witness): replacing `"b"` of `"abc"` by `"xy"` gives length 4. -/
theorem replacement_length_formula_witness :
    ropeLength
        (makeRope (string_to_rope ['a', 'b', 'c']) 1 2 (string_to_rope ['x', 'y']) 0 2) =
      4 :=
  ((replacement_length_formula
        (string_to_rope ['a', 'b', 'c']) (string_to_rope ['x', 'y']) 1 2 0 2
        (by decide) (by decide) (by decide) (by decide) (by decide) (by decide)
        (by decide) (by decide)).1).trans (by decide)

/-- C3 (amended): for every buffer built through the public interface the
segment map has strictly increasing `end_offset`s, forms a cumulative
chain covering `[0, length)` (each entry's source-range length is its
`end_offset` minus its predecessor's), and the source-range lengths sum to
`length`; every entry is non-zero-length except that a replacement's map
may start with a single zero-length entry whose `end_offset` is `0` (a
leaf's map has no zero-length entry at all). -/
theorem segment_map_partition_amended (rb rp : Rope) (i j k l : Int)
    (hwb : WFrope rb) (hwp : WFrope rp)
    (h0i : 0 ≤ i) (hij : i ≤ j) (hjL : j ≤ ropeLength rb)
    (h0k : 0 ≤ k) (hkl : k ≤ l) (hlL : l ≤ ropeLength rp) :
    (∀ v : List Char, WFfrom 0 (string_to_rope v) ∧ StrictKeys (string_to_rope v) ∧
        ∀ x ∈ string_to_rope v, 0 < x.2.se - x.2.sb) ∧
      WFfrom 0 (makeRope rb i j rp k l) ∧
        StrictKeys (makeRope rb i j rp k l) ∧
          sumLens (makeRope rb i j rp k l) = ropeLength (makeRope rb i j rp k l) ∧
            (∀ x ∈ (makeRope rb i j rp k l).tail, 0 < x.2.se - x.2.sb) ∧
              (∀ x ∈ makeRope rb i j rp k l, x.2.se - x.2.sb = 0 → x.1 = 0) := by
  obtain ⟨⟨hwfM, hstM⟩, _, _⟩ := makeRope_spec hwb hwp h0i hij hjL h0k hkl hlL
  obtain ⟨htail, hzero⟩ := zero_length_only_at_head hwfM hstM
  refine ⟨?_, hwfM, hstM, ?_, htail, hzero⟩
  · intro v
    by_cases hv : v = []
    · subst hv
      exact ⟨trivial, trivial, fun x hx => absurd hx (List.not_mem_nil x)⟩
    · have hlen : 0 < v.length := List.length_pos.mpr hv
      refine ⟨?_, ?_, ?_⟩
      · rw [string_to_rope, if_pos hv]
        refine ⟨?_, ?_, ?_, ?_, trivial⟩
        · show (v.length : Int) = 0 + ((v.length : Int) - 0)
          omega
        · show (0 : Int) ≤ 0
          omega
        · show (0 : Int) ≤ (v.length : Int)
          omega
        · show (v.length : Int) ≤ (v.length : Int)
          omega
      · rw [string_to_rope, if_pos hv]
        exact ⟨fun y hy => absurd hy (List.not_mem_nil y), trivial⟩
      · rw [string_to_rope, if_pos hv]
        intro x hx
        rcases List.mem_singleton.mp hx with rfl
        show (0 : Int) < v.length - 0
        omega
  · rw [sumLens_eq_length hwfM, ropeLength_eq_denote hwfM]

/-- C3 (witness for the amended claim): the partition facts for replacing
`"b"` of `"abc"` by `"xy"`. -/
theorem segment_map_partition_amended_witness :
    StrictKeys
        (makeRope (string_to_rope ['a', 'b', 'c']) 1 2 (string_to_rope ['x', 'y']) 0 2) ∧
      sumLens
          (makeRope (string_to_rope ['a', 'b', 'c']) 1 2 (string_to_rope ['x', 'y']) 0 2) =
        ropeLength
          (makeRope (string_to_rope ['a', 'b', 'c']) 1 2 (string_to_rope ['x', 'y']) 0 2) :=
  ⟨(segment_map_partition_amended
        (string_to_rope ['a', 'b', 'c']) (string_to_rope ['x', 'y']) 1 2 0 2
        (by decide) (by decide) (by decide) (by decide) (by decide) (by decide)
        (by decide) (by decide)).2.2.1,
    (segment_map_partition_amended
        (string_to_rope ['a', 'b', 'c']) (string_to_rope ['x', 'y']) 1 2 0 2
        (by decide) (by decide) (by decide) (by decide) (by decide) (by decide)
        (by decide) (by decide)).2.2.2.1⟩

/-- C4 (amended): construction fails fast (an `assert` aborts before any
value exists, so no partially constructed buffer becomes observable)
whenever one of `cut_from`, `cut_to` exceeds `base.length()` or one of
`patch_from`, `patch_to` exceeds `patch.length()`; under fully valid
bounds every `assert` passes, every view is a proper range, and the
constructed buffer is returned.  Other invalid bounds are not reliably
rejected: `cut_from > cut_to` inside `[0, length]` and a negative
`cut_to` pass every check and return a buffer (see the counterexample);
some further invalid inputs abort via the trimmer's `assert`s, and an
inverted window whose begin iterator lands after its end iterator makes
the traversal undefined behaviour. -/
theorem construction_bound_checks (rb : Rope) (i j : Int) (rp : Rope) (k l : Int) :
    (¬(i ≤ ropeLength rb ∧ j ≤ ropeLength rb ∧ k ≤ ropeLength rp ∧ l ≤ ropeLength rp) →
        makeRopeChecked rb i j rp k l = .error .preconditionViolation) ∧
      (WFrope rb → WFrope rp → 0 ≤ i → i ≤ j → j ≤ ropeLength rb → 0 ≤ k → k ≤ l →
        l ≤ ropeLength rp → makeRopeChecked rb i j rp k l = .ok (makeRope rb i j rp k l)) := by
  constructor
  · intro h
    rw [makeRopeChecked, if_neg h]
  · intro hwb hwp h0i hij hjL h0k hkl hlL
    have hassert := (makeRope_spec hwb hwp h0i hij hjL h0k hkl hlL).2.2
    rw [makeRopeChecked, if_pos hassert.1,
      if_pos ⟨viewProper_of_le h0i, viewProper_of_le hkl, viewProper_of_le hjL⟩,
      if_pos ⟨hassert.2.1, hassert.2.2.1, hassert.2.2.2⟩]

/-- C4 (witness for the amended claim): an out-of-length bound aborts; valid
bounds construct. -/
theorem construction_bound_checks_witness :
    makeRopeChecked (string_to_rope ['a']) 5 0 (string_to_rope ['x']) 0 1 =
        .error .preconditionViolation ∧
      makeRopeChecked (string_to_rope ['a', 'b']) 1 1 (string_to_rope ['x']) 0 1 =
        .ok (makeRope (string_to_rope ['a', 'b']) 1 1 (string_to_rope ['x']) 0 1) :=
  ⟨(construction_bound_checks (string_to_rope ['a']) 5 0 (string_to_rope ['x']) 0 1).1
      (by decide),
    (construction_bound_checks (string_to_rope ['a', 'b']) 1 1 (string_to_rope ['x']) 0 1).2
      (by decide) (by decide) (by decide) (by decide) (by decide) (by decide) (by decide)
      (by decide)⟩

/-- C7: an empty replacement (`cut_from = cut_to = i`, empty patch window
`[0, 0)` of any patch) leaves the content unchanged. -/
theorem empty_replacement_content_noop (rb rp : Rope) (i : Int)
    (hwb : WFrope rb) (hwp : WFrope rp) (h0i : 0 ≤ i) (hiL : i ≤ ropeLength rb) :
    ropeToString (makeRope rb i i rp 0 0) = ropeToString rb := by
  have h0p : (0 : Int) ≤ ropeLength rp := by
    rw [ropeLength_eq_denote hwp.1]
    omega
  obtain ⟨⟨hwfM, _⟩, hdenM, _⟩ :=
    makeRope_spec hwb hwp h0i (le_refl i) hiL (le_refl 0) (le_refl 0) h0p
  rw [ropeToString_ok hwfM, ropeToString_ok hwb.1]
  rw [hdenM]
  simp

/-- C7 (witness): an empty replacement at offset 1 of `"hi"` with patch
`"z"`. -/
theorem empty_replacement_content_noop_witness :
    ropeToString (makeRope (string_to_rope ['h', 'i']) 1 1 (string_to_rope ['z']) 0 0) =
      ropeToString (string_to_rope ['h', 'i']) :=
  empty_replacement_content_noop (string_to_rope ['h', 'i']) (string_to_rope ['z']) 1
    (by decide) (by decide) (by decide) (by decide)

/-- C10: the leaf built from the empty string has length `0`, an empty
segment map, equal `begin()` and `end()` iterators, and `at(0)` on it
raises `text_out_of_range`. -/
theorem empty_leaf_buffer :
    string_to_rope [] = ([] : Rope) ∧
      ropeLength (string_to_rope []) = 0 ∧
        ropeBegin 0 (string_to_rope []) = ropeEnd 0 (string_to_rope []) ∧
          ropeAt (string_to_rope []) 0 = .error (.outOfRange 0 0) := by
  decide

end TextEdit
